import Mathlib

/-!
Shallow embedding of the bucket synchronization logic of
`pkg/storage/bucket.go` (package `storage` of CSTDev/lambdahelpers).

The Go code talks to two injected capabilities (an S3 client and a transfer
manager) and to the local filesystem.  Both are modelled explicitly:

* the client/manager behaviour is a `*World` structure supplying, for each
  external call, the data or failure the call would produce (the client is
  modelled as yielding one listing response per `ListObjectsV2` call, in
  order, which is how the injected mock clients of the repository behave);
* the local filesystem is an `FS` value: a set of files (resolved path
  segments paired with content) and a set of directories, where path
  resolution collapses repeated separators and applies `.` / `..`
  the way the OS does when the Go code hands it a raw concatenated path;
* every operation returns, besides its Go return value, the ordered list of
  external calls it made (`Event`s), so that claims about "exactly one call"
  or "no further calls" are statements about that list.

Machine errors are `Err` values: one constructor per failing operation,
mirroring the Go code which propagates the error value of the failing call.
-/

namespace LambdaHelpers

/-- Errors that the Go code can return, one constructor per failing
external operation (the Go code returns the failing call's error verbatim,
so identifying the error with its origin is faithful). `noFiles` is the
domain error `errors.New("No files in bucket")` built by `ReadFile` itself.
`noResponse` is a model artifact: the injected client ran out of scripted
listing responses. -/
inductive Err where
  | listE : Err
  | noFiles : Err
  | getE : String → Err
  | readE : String → Err
  | deleteE : String → Err
  | waitE : String → Err
  | mkdirE : String → Err
  | createE : String → Err
  | downloadE : String → Err
  | openE : String → Err
  | uploadE : String → Err
  | noResponse : Err
  deriving DecidableEq, Repr

/-- External calls (and the per-key loop entry of the download routine),
recorded in the order the Go code performs them. -/
inductive Event where
  | listCall : Event
  | getCall : String → Event
  | deleteCall : String → Event
  | waitCall : String → Event
  | mkdir : String → Event
  | mkdirAll : String → Event
  | procKey : String → Event
  | create : String → Event
  | download : String → Event
  | uploadCall : String → Event
  deriving DecidableEq, Repr

/-- One `ListObjectsV2` response: the object keys of the page and the
`IsTruncated` flag. -/
structure Page where
  contents : List String
  isTruncated : Bool
  deriving DecidableEq, Repr

/-! ## Path model

The Go code builds filesystem paths by raw string concatenation and hands
them to the OS (`os.Stat`, `os.Create`, `os.MkdirAll`).  The OS resolves
such a path by splitting on `/`, dropping empty and `.` segments and
resolving `..` against the parent.  `splitSegs` is `strings.Split(s, "/")`
(on the character list), `resolvePath` is the OS-level resolution to a
canonical segment list. -/

/-- One step of splitting a character list on `/`. The accumulator is the
list of segments of the remainder (never empty). -/
def splitSegsStep (c : Char) (acc : List (List Char)) : List (List Char) :=
  if c = '/' then [] :: acc
  else
    match acc with
    | [] => [[c]]
    | s :: rest => (c :: s) :: rest

/-- Split a character list on `/`, keeping empty segments:
the behaviour of Go `strings.Split(s, "/")`. -/
def splitSegs (cs : List Char) : List (List Char) :=
  cs.foldr splitSegsStep [[]]

/-- Go `strings.Split(s, "/")`. -/
def splitSlash (s : String) : List String :=
  (splitSegs s.data).map (fun l => String.mk l)

/-- Resolve a list of raw path segments against an already-resolved
accumulator, the way the OS canonicalizes a path: empty and `.` segments
vanish, `..` removes the last accumulated segment. -/
def resolveFrom (acc : List String) (segs : List String) : List String :=
  segs.foldl
    (fun acc seg =>
      if seg = "" ∨ seg = "." then acc
      else if seg = ".." then acc.dropLast
      else acc ++ [seg])
    acc

/-- OS-level canonical form of a raw path string. -/
def resolvePath (s : String) : List String :=
  resolveFrom [] (splitSlash s)

/-- The local filesystem: files (resolved path, content) and directories
(resolved paths).  Only existence and content are modelled. -/
structure FS where
  files : List (List String × String)
  dirs : List (List String)
  deriving DecidableEq, Repr

/-- The empty filesystem. -/
def FS.empty : FS := ⟨[], []⟩

/-- Go `os.Stat(p)` existence test used by the download routine: true when
the resolved path names an existing file or directory. -/
def statExists (fs : FS) (p : String) : Bool :=
  fs.files.any (fun e => e.1 == resolvePath p) || fs.dirs.any (fun d => d == resolvePath p)

/-- The non-empty prefixes of a segment list, i.e. every directory that
`os.MkdirAll` would create on the way to the full path. -/
def segPrefixes (segs : List String) : List (List String) :=
  (List.range segs.length).map (fun n => segs.take (n + 1))

/-! ## Downloader: `DownloadAllObjectsInBucket` and `dowloadObjectsInBucket` -/

/-- External behaviour feeding one `DownloadAllObjectsInBucket` run:
the successive `ListObjectsV2` responses (`none` = the call errors), which
raw paths `os.Mkdir`/`os.MkdirAll` fail on, which raw paths `os.Create`
fails on, which keys `Manager.Download` fails on, and the object content
the store holds for each key. -/
structure DLWorld where
  pages : List (Option Page)
  mkdirFails : String → Bool
  createFails : String → Bool
  downloadFails : String → Bool
  content : String → String

/-- Go `os.Mkdir(p, 0777)` as the code uses it: the error is discarded, so
the only effect is that on success the directory now exists. -/
def applyMkdir (w : DLWorld) (fs : FS) (p : String) : FS :=
  if w.mkdirFails p then fs
  else { fs with dirs := fs.dirs ++ [resolvePath p] }

/-- Go `os.MkdirAll(p, 0775)` as the code uses it: the error is discarded;
on success every directory on the way to `p` exists. -/
def applyMkdirAll (w : DLWorld) (fs : FS) (p : String) : FS :=
  if w.mkdirFails p then fs
  else { fs with dirs := fs.dirs ++ segPrefixes (resolvePath p) }

/-- The `dirTree` string built in `dowloadObjectsInBucket`: `"/" + dir` for
every segment of the key but the last, appended to `destDir`. -/
def dirTreePath (destDir key : String) : String :=
  destDir ++ (splitSlash key).dropLast.foldl (fun acc d => acc ++ "/" ++ d) ""

/-- The body of the `for _, key := range bucketObjectsList.Contents` loop of
`dowloadObjectsInBucket` for one key: create the key's directory tree if
the key contains `/`, then skip if the destination path exists, otherwise
create the file and download into it.  Returns the updated filesystem (or
the error the Go code would return) and the recorded events. -/
def downloadKey (w : DLWorld) (destDir : String) (fs : FS) (key : String) :
    Except Err FS × List Event :=
  let mkE : List Event :=
    if key.data.contains '/' then [Event.mkdirAll (dirTreePath destDir key)] else []
  let fs1 : FS :=
    if key.data.contains '/' then applyMkdirAll w fs (dirTreePath destDir key) else fs
  let p : String := destDir ++ key
  if statExists fs1 p then
    (.ok fs1, Event.procKey key :: mkE)
  else if w.createFails p then
    (.error (.createE p), Event.procKey key :: (mkE ++ [Event.create p]))
  else if w.downloadFails key then
    (.error (.downloadE key), Event.procKey key :: (mkE ++ [Event.create p, Event.download key]))
  else
    (.ok { fs1 with files := fs1.files ++ [(resolvePath p, w.content key)] },
     Event.procKey key :: (mkE ++ [Event.create p, Event.download key]))

/-- Go `dowloadObjectsInBucket` (the misspelling is the source's): process
every key of one listing response in order, stopping at the first error. -/
def dowloadObjectsInBucket (w : DLWorld) (destDir : String) (fs : FS) :
    List String → Except Err FS × List Event
  | [] => (.ok fs, [])
  | k :: rest =>
    match downloadKey w destDir fs k with
    | (.ok fs1, evs) =>
      let r := dowloadObjectsInBucket w destDir fs1 rest
      (r.1, evs ++ r.2)
    | (.error e, evs) => (.error e, evs)

/-- The `for truncatedListing` loop of `DownloadAllObjectsInBucket`: consume
listing responses until a page is processed whose `IsTruncated` is false.
If the scripted responses run out while the loop would continue, the model
returns the artifact error `noResponse`. -/
def downloadLoop (w : DLWorld) (destDir : String) (fs : FS) :
    List (Option Page) → Except Err FS × List Event
  | [] => (.error .noResponse, [Event.listCall])
  | none :: _ => (.error .listE, [Event.listCall])
  | some page :: rest =>
    match dowloadObjectsInBucket w destDir fs page.contents with
    | (.error e, evs) => (.error e, Event.listCall :: evs)
    | (.ok fs1, evs) =>
      if page.isTruncated then
        let r := downloadLoop w destDir fs1 rest
        (r.1, Event.listCall :: (evs ++ r.2))
      else
        (.ok fs1, Event.listCall :: evs)

/-- Result of a `DownloadAllObjectsInBucket` run: a Go runtime panic, a
returned error, or normal return (carrying the final filesystem). -/
inductive Outcome where
  | crashed : Outcome
  | err : Err → Outcome
  | ok : FS → Outcome
  deriving DecidableEq, Repr

/-- Go `destDir += "/"` normalization: append `/` unless the last character
already is one (the Go code tests the last byte of the string). -/
def normalizeDestDir (destDir : String) : String :=
  if destDir.data.getLast? = some '/' then destDir else destDir ++ "/"

/-- The directory-creation preamble of `DownloadAllObjectsInBucket`:
`os.Mkdir(destDir, 0777)` followed by `os.Mkdir(destDir+dir, 0777)` for
each extra directory, all return values discarded. -/
def mkdirPhase (w : DLWorld) (fs : FS) (d : String) (otherDirs : List String) :
    FS × List Event :=
  otherDirs.foldl
    (fun acc x => (applyMkdir w acc.1 (d ++ x), acc.2 ++ [Event.mkdir (d ++ x)]))
    (applyMkdir w fs d, [Event.mkdir d])

/-- Go `DownloadAllObjectsInBucket(destDir, otherDirs...)`.  The slice
expression `destDir[len(destDir)-1:]` panics when `destDir` is empty
(`crashed`, before any other effect).  Otherwise: normalize `destDir`,
create it and each extra directory (errors discarded), then run the
pagination loop. -/
def DownloadAllObjectsInBucket (w : DLWorld) (fs : FS) (destDir : String)
    (otherDirs : List String) : Outcome × List Event :=
  if destDir.data.length = 0 then (.crashed, [])
  else
    match downloadLoop w (normalizeDestDir destDir)
        (mkdirPhase w fs (normalizeDestDir destDir) otherDirs).1 w.pages with
    | (.ok fs1, evs) =>
      (.ok fs1, (mkdirPhase w fs (normalizeDestDir destDir) otherDirs).2 ++ evs)
    | (.error e, evs) =>
      (.err e, (mkdirPhase w fs (normalizeDestDir destDir) otherDirs).2 ++ evs)

/-- The keys whose per-key processing the download routine entered, in
order. -/
def procKeys (evs : List Event) : List String :=
  evs.filterMap (fun e => match e with | .procKey k => some k | _ => none)

/-- How many `ListObjectsV2` calls a run made. -/
def listCalls (evs : List Event) : Nat :=
  evs.countP (fun e => e == Event.listCall)

/-- True when the event list contains no file creation and no download
call. -/
def noCreateOrDownload (evs : List Event) : Bool :=
  evs.all (fun e => match e with | .create _ => false | .download _ => false | _ => true)

/-! ## Single-object reader: `ReadFile` -/

/-- External behaviour feeding one `ReadFile` call: the single
`ListObjectsV2` response (`none` = the call errors, otherwise the listed
keys), which keys `GetObject` fails on, which bodies `ioutil.ReadAll`
fails on, and the byte content of each object. -/
structure ReadWorld where
  listing : Option (List String)
  getFails : String → Bool
  readFails : String → Bool
  content : String → String

/-- Go `ReadFile()`: list the bucket (one page); error out on a listing
failure; return the domain error `noFiles` on an empty listing; otherwise
get the first listed object, read its body and return `(body, key, nil)`.
The Go `for` loop always returns during its first iteration, so only the
first entry is ever touched. -/
def ReadFile (w : ReadWorld) : (String × String × Option Err) × List Event :=
  match w.listing with
  | none => (("", "", some .listE), [Event.listCall])
  | some [] => (("", "", some .noFiles), [Event.listCall])
  | some (key :: _) =>
    if w.getFails key then
      (("", "", some (.getE key)), [Event.listCall, Event.getCall key])
    else if w.readFails key then
      (("", "", some (.readE key)), [Event.listCall, Event.getCall key])
    else
      ((w.content key, key, none), [Event.listCall, Event.getCall key])

/-! ## Single-object deleter: `DeleteObject` -/

/-- External behaviour feeding one `DeleteObject` call: which keys the
store's delete fails on and which keys `WaitUntilObjectNotExists` fails
on. -/
structure DelWorld where
  deleteFails : String → Bool
  waitFails : String → Bool

/-- Go `DeleteObject(key)`: issue the delete; on failure return its error
(the wait is never reached); otherwise wait until the object is gone and
return that call's error, or nil when both succeeded. -/
def DeleteObject (w : DelWorld) (key : String) : Option Err × List Event :=
  if w.deleteFails key then
    (some (.deleteE key), [Event.deleteCall key])
  else if w.waitFails key then
    (some (.waitE key), [Event.deleteCall key, Event.waitCall key])
  else
    (none, [Event.deleteCall key, Event.waitCall key])

/-! ## Uploader: `Upload` and `uploadFile` -/

mutual

/-- A local directory tree as the walk sees it: names of files and
directories, with the children of a directory visited in forest order. -/
inductive FsTree where
  | file : String → FsTree
  | dir : String → FsForest → FsTree

/-- The children of a directory. -/
inductive FsForest where
  | nil : FsForest
  | cons : FsTree → FsForest → FsForest

end

/-- The name component of a tree node. -/
def FsTree.nameOf : FsTree → String
  | .file n => n
  | .dir n _ => n

mutual

/-- The local paths of the regular files below the walk root, in the order
`godirwalk.Walk` visits them; `p` is the path string naming the current
node (for the root, the argument given to `Upload`). -/
def walkFiles (p : String) : FsTree → List String
  | .file _ => [p]
  | .dir _ children => walkForest p children

/-- The files of a directory's children, in visit order. -/
def walkForest (p : String) : FsForest → List String
  | .nil => []
  | .cons c rest => walkFiles (p ++ "/" ++ c.nameOf) c ++ walkForest p rest

end

/-- Go `filepath.ToSlash`: on Linux (where the repository runs and is
tested) the path separator already is `/`, so this is the identity. -/
def toSlash (s : String) : String := s

/-- Go `strings.TrimPrefix(s, pre)`: remove the leading `pre` when present,
otherwise return `s` unchanged (stated on the character lists). -/
def trimPref (s pre : String) : String :=
  if pre.data.isPrefixOf s.data then String.mk (s.data.drop pre.data.length) else s

/-- The object key `uploadFile` computes for a local file: the file path
with the walk root's prefix trimmed, converted to forward slashes. -/
def uploadKey (inFile path : String) : String :=
  toSlash (trimPref (toSlash inFile) (toSlash path))

/-- The content type `uploadFile` sends: `text/css` for `.css` files,
`text/html` for everything else. -/
def contentTypeOf (filePath : String) : String :=
  if ".css".data.isSuffixOf filePath.data then "text/css" else "text/html"

/-- External behaviour feeding one `Upload` walk: which local paths
`os.Open` fails on, and which local paths the manager's upload fails
for. -/
structure UpWorld where
  openFails : String → Bool
  uploadFails : String → Bool

/-- The world in which every open and every upload succeeds. -/
def pureUpWorld : UpWorld := ⟨fun _ => false, fun _ => false⟩

/-- Go `uploadFile(inFile, path, b)`: open the file (propagating a failure
before any upload call), compute the key, and issue the upload, propagating
its failure. -/
def uploadFile (w : UpWorld) (path inFile : String) : Option Err × List Event :=
  if w.openFails inFile then (some (.openE inFile), [])
  else if w.uploadFails inFile then
    (some (.uploadE inFile), [Event.uploadCall (uploadKey inFile path)])
  else (none, [Event.uploadCall (uploadKey inFile path)])

/-- The walk callback applied to the files in visit order: upload each one,
and stop the walk at the first error, which `Upload` returns. -/
def uploadRun (w : UpWorld) (path : String) : List String → Option Err × List Event
  | [] => (none, [])
  | f :: rest =>
    match uploadFile w path f with
    | (none, evs) =>
      let r := uploadRun w path rest
      (r.1, evs ++ r.2)
    | (some e, evs) => (some e, evs)

/-- Go `Upload(path)` over the directory tree `t` rooted at `path`:
directories themselves are skipped by the callback, so the walk amounts to
processing the regular files in visit order. -/
def Upload (w : UpWorld) (path : String) (t : FsTree) : Option Err × List Event :=
  uploadRun w path (walkFiles path t)

/-- The keys of the upload calls a run made, in order. -/
def uploadKeys (evs : List Event) : List String :=
  evs.filterMap (fun e => match e with | .uploadCall k => some k | _ => none)

/-! ## General helper lemmas -/

lemma procKeys_append (a b : List Event) : procKeys (a ++ b) = procKeys a ++ procKeys b := by
  simp [procKeys]

lemma listCalls_append (a b : List Event) : listCalls (a ++ b) = listCalls a + listCalls b := by
  simp [listCalls, List.countP_append]

lemma noCreateOrDownload_append (a b : List Event) :
    noCreateOrDownload (a ++ b) = (noCreateOrDownload a && noCreateOrDownload b) := by
  simp [noCreateOrDownload, List.all_append]

lemma data_length_ne_zero_of_ne_empty (s : String) (h : s ≠ "") : s.data.length ≠ 0 := by
  intro hl
  apply h
  cases s with
  | mk d =>
    cases d with
    | nil => rfl
    | cons c cs => simp at hl

/-! ## Claim theorems -/

/-- C9: `DownloadAllObjectsInBucket` is not total over all string inputs:
called with the empty string as `destDir`, it panics (out-of-range slice of
`destDir`'s last character during trailing-separator normalization) before
any store listing or directory creation occurs — the run crashes with an
empty event list. -/
theorem downloadAll_empty_destDir_crashes (w : DLWorld) (fs : FS) (otherDirs : List String) :
    DownloadAllObjectsInBucket w fs "" otherDirs = (Outcome.crashed, []) := by
  simp [DownloadAllObjectsInBucket]

/-- C6: `ReadFile()` on a bucket whose listing succeeds but returns zero
entries returns the distinct domain-level "no files" error (its own `Err`
constructor, not a propagated store or I/O error) together with empty
strings for the body and key outputs. -/
theorem readFile_empty_bucket (w : ReadWorld) (h : w.listing = some []) :
    ReadFile w = (("", "", some Err.noFiles), [Event.listCall]) := by
  simp [ReadFile, h]

theorem readFile_empty_bucket_witness :
    ReadFile ⟨some [], fun _ => false, fun _ => false, fun _ => "Hello"⟩ =
      (("", "", some Err.noFiles), [Event.listCall]) :=
  readFile_empty_bucket _ rfl

/-- C5: for a bucket whose listing returns at least one entry and whose
get-object and body-read succeed, `ReadFile()` returns `(body, key, nil)`
where `key` is the first listed entry and `body` its full content, and it
issues exactly one get-object call, for that first entry only, regardless
of how many entries the listing contains. -/
theorem readFile_first_entry (w : ReadWorld) (key : String) (rest : List String)
    (hl : w.listing = some (key :: rest))
    (hg : w.getFails key = false) (hr : w.readFails key = false) :
    ReadFile w = ((w.content key, key, none), [Event.listCall, Event.getCall key]) := by
  simp [ReadFile, hl, hg, hr]

theorem readFile_first_entry_witness :
    ReadFile ⟨some ["Object1", "Object2"], fun _ => false, fun _ => false, fun _ => "Hello"⟩ =
      (("Hello", "Object1", none), [Event.listCall, Event.getCall "Object1"]) :=
  readFile_first_entry _ "Object1" ["Object2"] rfl rfl rfl

/-- C7: `DeleteObject(key)` invokes the store's delete exactly once and the
existence-wait exactly once, in that order, returning nil exactly when both
succeed; when the delete fails its error is returned and the wait is never
invoked, and when the wait fails its error is returned. -/
theorem deleteObject_delete_then_wait (w : DelWorld) (key : String) :
    (DeleteObject w key).2 =
        Event.deleteCall key ::
          (if w.deleteFails key then [] else [Event.waitCall key]) ∧
      ((DeleteObject w key).1 = none ↔
        (w.deleteFails key = false ∧ w.waitFails key = false)) ∧
      (w.deleteFails key = true →
        DeleteObject w key = (some (Err.deleteE key), [Event.deleteCall key])) ∧
      (w.deleteFails key = false → w.waitFails key = true →
        DeleteObject w key =
          (some (Err.waitE key), [Event.deleteCall key, Event.waitCall key])) := by
  rcases hd : w.deleteFails key <;> rcases hw : w.waitFails key <;>
    simp [DeleteObject, hd, hw]

theorem deleteObject_delete_then_wait_witness :
    DeleteObject ⟨fun _ => false, fun _ => true⟩ "k" =
      (some (Err.waitE "k"), [Event.deleteCall "k", Event.waitCall "k"]) :=
  (deleteObject_delete_then_wait ⟨fun _ => false, fun _ => true⟩ "k").2.2.2 rfl rfl

/-- The local tree `input/testUpload/{Object1.txt, Object2.md}` of the
directory-tree upload scenario. -/
def testUploadTree : FsTree :=
  .dir "testUpload" (.cons (.file "Object1.txt") (.cons (.file "Object2.md") .nil))

lemma uploadRun_pure (path : String) (fsList : List String) :
    uploadRun pureUpWorld path fsList =
      (none, fsList.map (fun f => Event.uploadCall (uploadKey f path))) := by
  induction fsList with
  | nil => rfl
  | cons f rest ih =>
    have hf : uploadFile pureUpWorld path f = (none, [Event.uploadCall (uploadKey f path)]) := rfl
    simp [uploadRun, hf, ih]

lemma uploadKeys_map_uploadCall (g : String → String) (l : List String) :
    uploadKeys (l.map (fun f => Event.uploadCall (g f))) = l.map g := by
  induction l with
  | nil => rfl
  | cons a l ih => simpa [uploadKeys, List.filterMap_cons] using ih

/-- C2, counterexample: `Upload("input/testUpload")` over the tree
`input/testUpload/{Object1.txt, Object2.md}` issues its two uploads with
keys `"/Object1.txt"` and `"/Object2.md"` — the claimed keys
`"testUpload/Object1.txt"` and `"testUpload/Object2.md"` are never sent,
because `strings.TrimPrefix` strips the whole walk root `input/testUpload`,
leaving the separator in place. -/
theorem upload_scenario_keys_counterexample :
    uploadKeys (Upload pureUpWorld "input/testUpload" testUploadTree).2 =
        ["/Object1.txt", "/Object2.md"] ∧
      uploadKeys (Upload pureUpWorld "input/testUpload" testUploadTree).2 ≠
        ["testUpload/Object1.txt", "testUpload/Object2.md"] ∧
      "testUpload/Object1.txt" ∉
        uploadKeys (Upload pureUpWorld "input/testUpload" testUploadTree).2 := by
  refine ⟨rfl, by decide, by decide⟩

/-- C2, amended: for the tree `input/testUpload/{Object1.txt, Object2.md}`,
`Upload("input/testUpload")` issues exactly one upload per file, with keys
exactly `"/Object1.txt"` and `"/Object2.md"` (the walk root's prefix is
stripped, which keeps the path separator that follows the root, so the keys
begin with `/`); in general the key of each uploaded file equals its local
path with the walk root's prefix stripped and path separators converted to
`/`. -/
theorem upload_scenario_keys :
    Upload pureUpWorld "input/testUpload" testUploadTree =
        (none, [Event.uploadCall "/Object1.txt", Event.uploadCall "/Object2.md"]) ∧
      ∀ (root : String) (t : FsTree),
        uploadKeys (Upload pureUpWorld root t).2 =
          (walkFiles root t).map (fun f => trimPref (toSlash f) (toSlash root)) := by
  constructor
  · rfl
  · intro root t
    show uploadKeys (uploadRun pureUpWorld root (walkFiles root t)).2 = _
    rw [uploadRun_pure, uploadKeys_map_uploadCall]
    rfl

/-- C8: during `Upload(path)`, the first failure — whether a failure to
open a file or a failure of the store upload call — aborts the remainder of
the walk and is returned as `Upload`'s error; the uploads issued before the
failure are exactly those of the earlier files (they remain issued, no
rollback), the failing upload call itself is issued only when the open
succeeded, and no upload call at all is issued for the later files. -/
theorem upload_first_failure_aborts (w : UpWorld) (root : String) (t : FsTree)
    (pre : List String) (f : String) (post : List String)
    (hsplit : walkFiles root t = pre ++ f :: post)
    (hpre : ∀ g ∈ pre, w.openFails g = false ∧ w.uploadFails g = false)
    (hf : w.openFails f = true ∨ w.uploadFails f = true) :
    Upload w root t =
      (some (if w.openFails f then Err.openE f else Err.uploadE f),
       pre.map (fun g => Event.uploadCall (uploadKey g root)) ++
         (if w.openFails f then [] else [Event.uploadCall (uploadKey f root)])) := by
  unfold Upload
  rw [hsplit]
  clear hsplit
  induction pre with
  | nil =>
    rcases ho : w.openFails f with _ | _
    · have hu : w.uploadFails f = true := by
        rcases hf with hf | hf
        · rw [ho] at hf; simp at hf
        · exact hf
      simp [uploadRun, uploadFile, ho, hu]
    · simp [uploadRun, uploadFile, ho]
  | cons g rest ih =>
    have hg := hpre g (by simp)
    have hrest : ∀ x ∈ rest, w.openFails x = false ∧ w.uploadFails x = false := by
      intro x hx
      exact hpre x (by simp [hx])
    have hgFile : uploadFile w root g = (none, [Event.uploadCall (uploadKey g root)]) := by
      simp [uploadFile, hg.1, hg.2]
    simp [uploadRun, hgFile, ih hrest]

theorem upload_first_failure_aborts_witness :
    Upload ⟨fun _ => false, fun s => s == "r/b"⟩ "r"
        (.dir "d" (.cons (.file "a") (.cons (.file "b") (.cons (.file "c") .nil)))) =
      (some (Err.uploadE "r/b"),
       [Event.uploadCall "/a", Event.uploadCall "/b"]) := by
  have h := upload_first_failure_aborts ⟨fun _ => false, fun s => s == "r/b"⟩ "r"
    (.dir "d" (.cons (.file "a") (.cons (.file "b") (.cons (.file "c") .nil))))
    ["r/a"] "r/b" ["r/c"] (by decide) (by decide) (by decide)
  exact h.trans (by decide)

/-! ## Lemmas about the download machinery -/

lemma downloadKey_no_mkdirE (w : DLWorld) (d : String) (fs : FS) (k p : String) :
    (downloadKey w d fs k).1 ≠ Except.error (Err.mkdirE p) := by
  simp only [downloadKey]
  split_ifs <;> simp

lemma dowloadObjectsInBucket_no_mkdirE (w : DLWorld) (d : String) (p : String) :
    ∀ (keys : List String) (fs : FS),
      (dowloadObjectsInBucket w d fs keys).1 ≠ Except.error (Err.mkdirE p) := by
  intro keys
  induction keys with
  | nil => intro fs; simp [dowloadObjectsInBucket]
  | cons k rest ih =>
    intro fs
    rcases hdk : downloadKey w d fs k with ⟨res, evs⟩
    cases res with
    | ok fs1 => simp [dowloadObjectsInBucket, hdk, ih fs1]
    | error e =>
      have := downloadKey_no_mkdirE w d fs k p
      rw [hdk] at this
      simp [dowloadObjectsInBucket, hdk]
      intro he
      exact this (by rw [he])

lemma downloadLoop_no_mkdirE (w : DLWorld) (d : String) (p : String) :
    ∀ (resps : List (Option Page)) (fs : FS),
      (downloadLoop w d fs resps).1 ≠ Except.error (Err.mkdirE p) := by
  intro resps
  induction resps with
  | nil => intro fs; simp [downloadLoop]
  | cons r rest ih =>
    intro fs
    cases r with
    | none => simp [downloadLoop]
    | some page =>
      rcases hpg : dowloadObjectsInBucket w d fs page.contents with ⟨res, evs⟩
      cases res with
      | ok fs1 =>
        rcases ht : page.isTruncated with _ | _
        · simp [downloadLoop, hpg, ht]
        · simp [downloadLoop, hpg, ht, ih fs1]
      | error e =>
        have := dowloadObjectsInBucket_no_mkdirE w d p page.contents fs
        rw [hpg] at this
        simp [downloadLoop, hpg]
        intro he
        exact this (by rw [he])

lemma downloadLoop_head_listCall (w : DLWorld) (d : String) (fs : FS)
    (resps : List (Option Page)) :
    ∃ tail, (downloadLoop w d fs resps).2 = Event.listCall :: tail := by
  cases resps with
  | nil => exact ⟨[], rfl⟩
  | cons r rest =>
    cases r with
    | none => exact ⟨[], rfl⟩
    | some page =>
      rcases hpg : dowloadObjectsInBucket w d fs page.contents with ⟨res, evs⟩
      cases res with
      | ok fs1 =>
        rcases ht : page.isTruncated with _ | _
        · exact ⟨evs, by simp [downloadLoop, hpg, ht]⟩
        · exact ⟨evs ++ (downloadLoop w d fs1 rest).2, by simp [downloadLoop, hpg, ht]⟩
      | error e => exact ⟨evs, by simp [downloadLoop, hpg]⟩

lemma mkdirPhase_events (w : DLWorld) (fs : FS) (d : String) (otherDirs : List String) :
    (mkdirPhase w fs d otherDirs).2 =
      Event.mkdir d :: otherDirs.map (fun x => Event.mkdir (d ++ x)) := by
  unfold mkdirPhase
  generalize applyMkdir w fs d = fs0
  suffices h : ∀ (dirs : List String) (fs1 : FS) (evs : List Event),
      (dirs.foldl
        (fun acc x => (applyMkdir w acc.1 (d ++ x), acc.2 ++ [Event.mkdir (d ++ x)]))
        (fs1, evs)).2 = evs ++ dirs.map (fun x => Event.mkdir (d ++ x)) by
    rw [h otherDirs fs0 [Event.mkdir d]]
    simp
  intro dirs
  induction dirs with
  | nil => intro fs1 evs; simp
  | cons x rest ih =>
    intro fs1 evs
    simp only [List.foldl_cons, ih, List.map_cons]
    simp

/-- C10: in `DownloadAllObjectsInBucket`, failures to create the
destination directory or any of the extra subdirectories are silently
ignored: whatever the mkdir outcomes, the run performs the mkdir calls and
then always proceeds to the store listing, and its result is never a mkdir
error. -/
theorem downloadAll_mkdir_errors_ignored (w : DLWorld) (fs : FS) (destDir : String)
    (otherDirs : List String) (h : destDir ≠ "") :
    (∃ tail, (DownloadAllObjectsInBucket w fs destDir otherDirs).2 =
        Event.mkdir (normalizeDestDir destDir) ::
          (otherDirs.map (fun x => Event.mkdir (normalizeDestDir destDir ++ x)) ++
            Event.listCall :: tail)) ∧
      ∀ p, (DownloadAllObjectsInBucket w fs destDir otherDirs).1 ≠
        Outcome.err (Err.mkdirE p) := by
  have hlen : destDir.data.length ≠ 0 := data_length_ne_zero_of_ne_empty destDir h
  obtain ⟨tail, htail⟩ := downloadLoop_head_listCall w (normalizeDestDir destDir)
    (mkdirPhase w fs (normalizeDestDir destDir) otherDirs).1 w.pages
  rcases hl : downloadLoop w (normalizeDestDir destDir)
      (mkdirPhase w fs (normalizeDestDir destDir) otherDirs).1 w.pages with ⟨res, evs⟩
  rw [hl] at htail
  simp only at htail
  subst htail
  cases res with
  | ok fs1 =>
    have hrun : DownloadAllObjectsInBucket w fs destDir otherDirs =
        (Outcome.ok fs1,
         (mkdirPhase w fs (normalizeDestDir destDir) otherDirs).2 ++
           Event.listCall :: tail) := by
      unfold DownloadAllObjectsInBucket
      rw [if_neg hlen, hl]
    constructor
    · exact ⟨tail, by rw [hrun, mkdirPhase_events]; simp⟩
    · intro p
      rw [hrun]
      simp
  | error e =>
    have hrun : DownloadAllObjectsInBucket w fs destDir otherDirs =
        (Outcome.err e,
         (mkdirPhase w fs (normalizeDestDir destDir) otherDirs).2 ++
           Event.listCall :: tail) := by
      unfold DownloadAllObjectsInBucket
      rw [if_neg hlen, hl]
    constructor
    · exact ⟨tail, by rw [hrun, mkdirPhase_events]; simp⟩
    · intro p
      rw [hrun]
      have h2 := downloadLoop_no_mkdirE w (normalizeDestDir destDir) p w.pages
        (mkdirPhase w fs (normalizeDestDir destDir) otherDirs).1
      rw [hl] at h2
      simp only [ne_eq] at h2 ⊢
      intro he
      apply h2
      simp only [Outcome.err.injEq] at he
      rw [he]

theorem downloadAll_mkdir_errors_ignored_witness :
    (∃ tail,
        (DownloadAllObjectsInBucket
            ⟨[some ⟨["k"], false⟩], fun _ => true, fun _ => false, fun _ => false,
              fun _ => "body"⟩
            FS.empty "out" ["public"]).2 =
          Event.mkdir "out/" ::
            ([Event.mkdir "out/public"] ++ Event.listCall :: tail)) ∧
      ∀ p,
        (DownloadAllObjectsInBucket
            ⟨[some ⟨["k"], false⟩], fun _ => true, fun _ => false, fun _ => false,
              fun _ => "body"⟩
            FS.empty "out" ["public"]).1 ≠ Outcome.err (Err.mkdirE p) := by
  have h := downloadAll_mkdir_errors_ignored
    ⟨[some ⟨["k"], false⟩], fun _ => true, fun _ => false, fun _ => false, fun _ => "body"⟩
    FS.empty "out" ["public"] (by decide)
  simpa using h

lemma procKeys_mkdirPhase (w : DLWorld) (fs : FS) (d : String) (dirs : List String) :
    procKeys (mkdirPhase w fs d dirs).2 = [] := by
  rw [mkdirPhase_events]
  simp [procKeys, List.filterMap_cons, List.filterMap_map]

lemma listCalls_mkdirPhase (w : DLWorld) (fs : FS) (d : String) (dirs : List String) :
    listCalls (mkdirPhase w fs d dirs).2 = 0 := by
  rw [mkdirPhase_events]
  simp [listCalls, List.countP_cons, List.countP_map]

lemma downloadKey_pure_ok (w : DLWorld) (hc : ∀ p, w.createFails p = false)
    (hdl : ∀ k, w.downloadFails k = false) (d : String) (fs : FS) (k : String) :
    ∃ fs' evs, downloadKey w d fs k = (Except.ok fs', evs) ∧
      procKeys evs = [k] ∧ listCalls evs = 0 := by
  simp only [downloadKey, hc, hdl, Bool.false_eq_true, if_false]
  split_ifs <;>
    exact ⟨_, _, rfl, by simp [procKeys, List.filterMap_cons], by simp [listCalls, List.countP_cons]⟩

lemma dowloadObjectsInBucket_pure_ok (w : DLWorld) (hc : ∀ p, w.createFails p = false)
    (hdl : ∀ k, w.downloadFails k = false) (d : String) :
    ∀ (keys : List String) (fs : FS),
      ∃ fs' evs, dowloadObjectsInBucket w d fs keys = (Except.ok fs', evs) ∧
        procKeys evs = keys ∧ listCalls evs = 0 := by
  intro keys
  induction keys with
  | nil => exact fun fs => ⟨fs, [], rfl, rfl, rfl⟩
  | cons k rest ih =>
    intro fs
    obtain ⟨fs1, evs1, hk, hpk1, hlc1⟩ := downloadKey_pure_ok w hc hdl d fs k
    obtain ⟨fs2, evs2, hr, hpk2, hlc2⟩ := ih fs1
    refine ⟨fs2, evs1 ++ evs2, ?_, ?_, ?_⟩
    · simp [dowloadObjectsInBucket, hk, hr]
    · rw [procKeys_append, hpk1, hpk2]; rfl
    · rw [listCalls_append, hlc1, hlc2]

lemma downloadLoop_cons_some (w : DLWorld) (d : String) (fs : FS) (page : Page)
    (rest : List (Option Page)) :
    downloadLoop w d fs (some page :: rest) =
      match dowloadObjectsInBucket w d fs page.contents with
      | (.error e, evs) => (.error e, Event.listCall :: evs)
      | (.ok fs1, evs) =>
        if page.isTruncated then
          ((downloadLoop w d fs1 rest).1,
           Event.listCall :: (evs ++ (downloadLoop w d fs1 rest).2))
        else (.ok fs1, Event.listCall :: evs) := rfl

lemma downloadLoop_pure_complete (w : DLWorld) (hc : ∀ p, w.createFails p = false)
    (hdl : ∀ k, w.downloadFails k = false) (d : String) :
    ∀ (pages : List Page) (fs : FS),
      pages ≠ [] →
      (∀ p ∈ pages.dropLast, p.isTruncated = true) →
      (∀ q, pages.getLast? = some q → q.isTruncated = false) →
      ∃ fs' evs, downloadLoop w d fs (pages.map some) = (Except.ok fs', evs) ∧
        procKeys evs = (pages.map Page.contents).flatten ∧
        listCalls evs = pages.length := by
  intro pages
  induction pages with
  | nil => exact fun fs hne _ _ => absurd rfl hne
  | cons p rest ih =>
    intro fs _ htr hlast
    obtain ⟨fs1, evs1, hpg, hpk1, hlc1⟩ :=
      dowloadObjectsInBucket_pure_ok w hc hdl d p.contents fs
    cases rest with
    | nil =>
      have ht : p.isTruncated = false := hlast p rfl
      refine ⟨fs1, Event.listCall :: evs1, ?_, ?_, ?_⟩
      · rw [List.map_cons, List.map_nil, downloadLoop_cons_some, hpg]
        simp [ht]
      · simp only [procKeys] at hpk1
        simp [procKeys, List.filterMap_cons, hpk1]
      · simp only [listCalls] at hlc1
        simp [listCalls, List.countP_cons, hlc1]
    | cons r rest2 =>
      have ht : p.isTruncated = true := by
        apply htr
        simp [List.dropLast]
      obtain ⟨fs2, evs2, hlp, hpk2, hlc2⟩ := ih fs1 (by simp)
        (fun q hq => htr q (by simp [List.dropLast, hq]))
        (fun q hq => hlast q (by rw [List.getLast?_cons_cons]; exact hq))
      refine ⟨fs2, Event.listCall :: (evs1 ++ evs2), ?_, ?_, ?_⟩
      · rw [List.map_cons, downloadLoop_cons_some, hpg]
        simp only [ht, if_true]
        rw [hlp]
      · simp only [procKeys] at hpk1 hpk2
        simp [procKeys, List.filterMap_cons, List.filterMap_append, hpk1, hpk2]
      · simp only [listCalls] at hlc1 hlc2
        simp [listCalls, List.countP_cons, List.countP_append, hlc1, hlc2]

/-- C1: for every sequence of N listing pages in which pages 1..N-1 report
truncated and page N reports not-truncated (the injected client yields
these responses on successive `ListObjectsV2` calls), a failure-free
`DownloadAllObjectsInBucket` run processes every entry of every one of the
N pages exactly once — the per-key processing events are exactly the
concatenation of the page contents, in order — and the loop terminates
after page N: exactly N listing calls are made and the run returns
normally. -/
theorem downloadAll_pagination_complete (w : DLWorld) (pages : List Page) (fs : FS)
    (destDir : String) (otherDirs : List String)
    (hd : destDir ≠ "")
    (hp : w.pages = pages.map some)
    (hc : ∀ p, w.createFails p = false)
    (hdl : ∀ k, w.downloadFails k = false)
    (hne : pages ≠ [])
    (htr : ∀ p ∈ pages.dropLast, p.isTruncated = true)
    (hlast : ∀ q, pages.getLast? = some q → q.isTruncated = false) :
    ∃ fs', (DownloadAllObjectsInBucket w fs destDir otherDirs).1 = Outcome.ok fs' ∧
      procKeys (DownloadAllObjectsInBucket w fs destDir otherDirs).2 =
        (pages.map Page.contents).flatten ∧
      listCalls (DownloadAllObjectsInBucket w fs destDir otherDirs).2 = pages.length := by
  have hlen : destDir.data.length ≠ 0 := data_length_ne_zero_of_ne_empty destDir hd
  obtain ⟨fs', evs, hloop, hpk, hlc⟩ := downloadLoop_pure_complete w hc hdl
    (normalizeDestDir destDir) pages
    (mkdirPhase w fs (normalizeDestDir destDir) otherDirs).1 hne htr hlast
  have hrun : DownloadAllObjectsInBucket w fs destDir otherDirs =
      (Outcome.ok fs',
       (mkdirPhase w fs (normalizeDestDir destDir) otherDirs).2 ++ evs) := by
    unfold DownloadAllObjectsInBucket
    rw [if_neg hlen, hp, hloop]
  refine ⟨fs', by rw [hrun], ?_, ?_⟩
  · rw [hrun]
    simp only
    rw [procKeys_append, procKeys_mkdirPhase, hpk]
    rfl
  · rw [hrun]
    simp only
    rw [listCalls_append, listCalls_mkdirPhase, hlc]
    exact Nat.zero_add _

theorem downloadAll_pagination_complete_witness :
    ∃ fs',
      (DownloadAllObjectsInBucket
          ⟨[some ⟨["a", "b"], true⟩, some ⟨["c"], false⟩], fun _ => false,
            fun _ => false, fun _ => false, fun _ => "body"⟩
          FS.empty "out/" []).1 = Outcome.ok fs' ∧
      procKeys
          (DownloadAllObjectsInBucket
            ⟨[some ⟨["a", "b"], true⟩, some ⟨["c"], false⟩], fun _ => false,
              fun _ => false, fun _ => false, fun _ => "body"⟩
            FS.empty "out/" []).2 =
        ([["a", "b"], ["c"]] : List (List String)).flatten ∧
      listCalls
          (DownloadAllObjectsInBucket
            ⟨[some ⟨["a", "b"], true⟩, some ⟨["c"], false⟩], fun _ => false,
              fun _ => false, fun _ => false, fun _ => "body"⟩
            FS.empty "out/" []).2 = 2 := by
  have h := downloadAll_pagination_complete
    ⟨[some ⟨["a", "b"], true⟩, some ⟨["c"], false⟩], fun _ => false,
      fun _ => false, fun _ => false, fun _ => "body"⟩
    [⟨["a", "b"], true⟩, ⟨["c"], false⟩] FS.empty "out/" []
    (by decide) rfl (fun _ => rfl) (fun _ => rfl) (by decide)
    (by intro p hp; simp [List.dropLast] at hp; rw [hp])
    (by intro q hq; simp at hq; rw [← hq])
  simpa using h

/-! ## Path lemmas for the leading-slash claim -/

lemma splitSegsStep_ne_nil (c : Char) (acc : List (List Char)) : splitSegsStep c acc ≠ [] := by
  unfold splitSegsStep
  split_ifs
  · simp
  · cases acc <;> simp

lemma foldr_splitSegsStep_ne_nil (cs : List Char) (init : List (List Char))
    (h : init ≠ []) : cs.foldr splitSegsStep init ≠ [] := by
  cases cs with
  | nil => exact h
  | cons c cs => exact splitSegsStep_ne_nil c _

lemma foldr_splitSegsStep_tail (cs : List Char) (h : List Char) (t : List (List Char)) :
    cs.foldr splitSegsStep (h :: t) = cs.foldr splitSegsStep [h] ++ t := by
  induction cs with
  | nil => rfl
  | cons c cs ih =>
    simp only [List.foldr_cons, ih]
    obtain ⟨s, rest, hsr⟩ :=
      List.exists_cons_of_ne_nil (foldr_splitSegsStep_ne_nil cs [h] (by simp))
    rw [hsr]
    by_cases hc : c = '/'
    · simp [splitSegsStep, hc]
    · simp [splitSegsStep, hc]

lemma splitSegs_append_slashHead (a k : List Char) :
    splitSegs (a ++ '/' :: k) = splitSegs a ++ splitSegs k := by
  unfold splitSegs
  rw [List.foldr_append]
  have h1 : List.foldr splitSegsStep [[]] ('/' :: k) = [] :: List.foldr splitSegsStep [[]] k := by
    simp [List.foldr_cons, splitSegsStep]
  rw [h1, foldr_splitSegsStep_tail]

lemma resolvePath_append_slashHead (a : String) (k : List Char) :
    resolvePath (a ++ String.mk ('/' :: k)) =
      resolveFrom (resolvePath a) (splitSlash (String.mk k)) := by
  unfold resolvePath splitSlash
  have hdata : (a ++ String.mk ('/' :: k)).data = a.data ++ '/' :: k := by
    cases a; rfl
  rw [hdata, splitSegs_append_slashHead, List.map_append]
  unfold resolveFrom
  rw [List.foldl_append]

lemma resolveFrom_isPre (segs : List String) :
    ∀ acc, (∀ s ∈ segs, s ≠ "..") → acc <+: resolveFrom acc segs := by
  induction segs with
  | nil => exact fun acc _ => List.prefix_refl acc
  | cons s segs ih =>
    intro acc h
    have hs : s ≠ ".." := h s (by simp)
    have hsegs : ∀ x ∈ segs, x ≠ ".." := fun x hx => h x (by simp [hx])
    unfold resolveFrom
    rw [List.foldl_cons]
    by_cases h1 : s = "" ∨ s = "."
    · rw [if_pos h1]
      exact ih acc hsegs
    · rw [if_neg h1, if_neg hs]
      exact (List.prefix_append acc [s]).trans (ih (acc ++ [s]) hsegs)

lemma downloadKey_create_events (w : DLWorld) (d : String) (fs : FS) (k : String) :
    ∀ p, Event.create p ∈ (downloadKey w d fs k).2 → p = d ++ k := by
  intro p hp
  simp only [downloadKey] at hp
  split_ifs at hp <;> simp at hp <;> tauto

/-- The failure-free download world whose single non-truncated listing page
contains exactly the key `/posts/Object1`, with object content `body`. -/
def postsWorld : DLWorld :=
  ⟨[some ⟨["/posts/Object1"], false⟩], fun _ => false, fun _ => false, fun _ => false,
    fun _ => "body"⟩

/-- The failure-free download world whose single non-truncated listing page
contains exactly the traversal key `/../Object1`. -/
def travWorld : DLWorld :=
  ⟨[some ⟨["/../Object1"], false⟩], fun _ => false, fun _ => false, fun _ => false,
    fun _ => "body"⟩

/-- C3, counterexample: the claim's general part — a key beginning with `/`
always yields a file inside the destination directory — is false.  For the
listed key `/../Object1`, `DownloadAllObjectsInBucket("out/")` creates the
file at raw path `out//../Object1`, which the OS resolves to `Object1`
next to `out/`, not inside it: the run's filesystem holds the downloaded
content at resolved path `["Object1"]`, which `["out"]` is not a prefix
of. -/
theorem download_leading_slash_counterexample :
    (DownloadAllObjectsInBucket travWorld FS.empty "out/" []).1 =
        Outcome.ok ⟨[(["Object1"], "body")], [["out"]]⟩ ∧
      Event.create "out//../Object1" ∈
        (DownloadAllObjectsInBucket travWorld FS.empty "out/" []).2 ∧
      resolvePath "out//../Object1" = ["Object1"] ∧
      (resolvePath "out/").isPrefixOf (resolvePath "out//../Object1") = false := by
  exact ⟨rfl, by decide, rfl, rfl⟩

/-- C3, amended: for a bucket whose single non-truncated listing page
contains exactly the key `/posts/Object1`, `DownloadAllObjectsInBucket("out/")`
creates the subdirectory `out/posts` (resolved `["out", "posts"]`) and
writes the downloaded content to `out//posts/Object1`, which resolves to
`out/posts/Object1` inside the destination; in general a key beginning
with `/` and containing no `..` segments yields a file whose path is
`destDir ++ key` and whose resolved location lies inside the destination
directory (keys with `..` traversal segments can escape it, a risk the
spec marks out of scope). -/
theorem download_leading_slash_inside :
    DownloadAllObjectsInBucket postsWorld FS.empty "out/" [] =
        (Outcome.ok
          ⟨[(["out", "posts", "Object1"], "body")], [["out"], ["out"], ["out", "posts"]]⟩,
         [Event.mkdir "out/", Event.listCall, Event.procKey "/posts/Object1",
          Event.mkdirAll "out///posts", Event.create "out//posts/Object1",
          Event.download "/posts/Object1"]) ∧
      ∀ (w : DLWorld) (fs : FS) (destDir key : String),
        key.data.head? = some '/' →
        (∀ s ∈ splitSlash key, s ≠ "..") →
        (∀ p, Event.create p ∈ (downloadKey w destDir fs key).2 → p = destDir ++ key) ∧
        (resolvePath destDir).isPrefixOf (resolvePath (destDir ++ key)) = true := by
  constructor
  · rfl
  · intro w fs destDir key hhead hdots
    refine ⟨downloadKey_create_events w destDir fs key, ?_⟩
    obtain ⟨kd, hkd⟩ : ∃ kd, key.data = '/' :: kd := by
      cases hk : key.data with
      | nil => rw [hk] at hhead; simp at hhead
      | cons c k2 =>
        rw [hk] at hhead
        simp at hhead
        exact ⟨k2, by rw [hhead]⟩
    have hkey : key = String.mk ('/' :: kd) := by
      cases key
      simp at hkd
      rw [hkd]
    rw [ List.isPrefixOf_iff_prefix]
    rw [hkey, resolvePath_append_slashHead]
    apply resolveFrom_isPre
    intro s hs
    apply hdots
    rw [hkey]
    show s ∈ (splitSegs ('/' :: kd)).map (fun l => String.mk l)
    have hsplit : splitSegs ('/' :: kd) = [] :: splitSegs kd := by
      simp [splitSegs, List.foldr_cons, splitSegsStep]
    rw [hsplit, List.map_cons]
    exact List.mem_cons_of_mem _ hs

theorem download_leading_slash_inside_witness :
    (∀ p, Event.create p ∈ (downloadKey postsWorld "out/" FS.empty "/posts/Object1").2 →
        p = "out/" ++ "/posts/Object1") ∧
      (resolvePath "out/").isPrefixOf (resolvePath ("out/" ++ "/posts/Object1")) = true :=
  download_leading_slash_inside.2 postsWorld FS.empty "out/" "/posts/Object1"
    (by decide) (by decide)

/-! ## Monotonicity machinery for the idempotence claim -/

/-- A file of `fs` exists at the resolved form of the raw path `p`. -/
def fileExists (fs : FS) (p : String) : Bool :=
  fs.files.any (fun e => e.1 == resolvePath p)

/-- `fs` is contained in `fs'`: every file and directory of `fs` is in
`fs'`.  Every step of the download routine only grows the filesystem. -/
def SubFS (fs fs' : FS) : Prop :=
  (∀ x ∈ fs.files, x ∈ fs'.files) ∧ (∀ d ∈ fs.dirs, d ∈ fs'.dirs)

lemma SubFS.rfl (fs : FS) : SubFS fs fs :=
  ⟨fun _ hx => hx, fun _ hd => hd⟩

lemma SubFS.trans {fs1 fs2 fs3 : FS} (h1 : SubFS fs1 fs2) (h2 : SubFS fs2 fs3) :
    SubFS fs1 fs3 :=
  ⟨fun x hx => h2.1 x (h1.1 x hx), fun d hd => h2.2 d (h1.2 d hd)⟩

lemma statExists_mono {fs fs' : FS} (h : SubFS fs fs') (p : String)
    (he : statExists fs p = true) : statExists fs' p = true := by
  simp only [statExists, Bool.or_eq_true, List.any_eq_true] at he ⊢
  rcases he with ⟨x, hx, hb⟩ | ⟨d, hd, hb⟩
  · exact Or.inl ⟨x, h.1 x hx, hb⟩
  · exact Or.inr ⟨d, h.2 d hd, hb⟩

lemma applyMkdir_files (w : DLWorld) (fs : FS) (p : String) :
    (applyMkdir w fs p).files = fs.files := by
  unfold applyMkdir
  split_ifs <;> rfl

lemma subFS_applyMkdir (w : DLWorld) (fs : FS) (p : String) :
    SubFS fs (applyMkdir w fs p) := by
  unfold applyMkdir
  split_ifs
  · exact SubFS.rfl fs
  · exact ⟨fun x hx => hx, fun d hd => by simp [hd]⟩

lemma applyMkdirAll_files (w : DLWorld) (fs : FS) (p : String) :
    (applyMkdirAll w fs p).files = fs.files := by
  unfold applyMkdirAll
  split_ifs <;> rfl

lemma subFS_applyMkdirAll (w : DLWorld) (fs : FS) (p : String) :
    SubFS fs (applyMkdirAll w fs p) := by
  unfold applyMkdirAll
  split_ifs
  · exact SubFS.rfl fs
  · exact ⟨fun x hx => hx, fun d hd => by simp [hd]⟩

lemma mkdirFold_fst (w : DLWorld) (d : String) (dirs : List String) :
    ∀ (fs : FS) (evs : List Event),
      (dirs.foldl
        (fun acc x => (applyMkdir w acc.1 (d ++ x), acc.2 ++ [Event.mkdir (d ++ x)]))
        (fs, evs)).1 =
      dirs.foldl (fun f x => applyMkdir w f (d ++ x)) fs := by
  induction dirs with
  | nil => intro fs evs; rfl
  | cons x rest ih => intro fs evs; simp [List.foldl_cons, ih]

lemma mkdirPhase_files (w : DLWorld) (fs : FS) (d : String) (dirs : List String) :
    (mkdirPhase w fs d dirs).1.files = fs.files := by
  unfold mkdirPhase
  rw [mkdirFold_fst]
  suffices h : ∀ (dirs2 : List String) (fs0 : FS),
      (dirs2.foldl (fun f x => applyMkdir w f (d ++ x)) fs0).files = fs0.files by
    rw [h, applyMkdir_files]
  intro dirs2
  induction dirs2 with
  | nil => intro fs0; rfl
  | cons x rest ih => intro fs0; rw [List.foldl_cons, ih, applyMkdir_files]

lemma subFS_mkdirPhase (w : DLWorld) (fs : FS) (d : String) (dirs : List String) :
    SubFS fs (mkdirPhase w fs d dirs).1 := by
  unfold mkdirPhase
  rw [mkdirFold_fst]
  have h : ∀ (dirs2 : List String) (fs0 : FS),
      SubFS fs0 (dirs2.foldl (fun f x => applyMkdir w f (d ++ x)) fs0) := by
    intro dirs2
    induction dirs2 with
    | nil => intro fs0; exact SubFS.rfl fs0
    | cons x rest ih =>
      intro fs0
      rw [List.foldl_cons]
      exact (subFS_applyMkdir w fs0 (d ++ x)).trans (ih _)
  exact (subFS_applyMkdir w fs d).trans (h dirs _)

lemma noCreateOrDownload_mkdirPhase (w : DLWorld) (fs : FS) (d : String)
    (dirs : List String) : noCreateOrDownload (mkdirPhase w fs d dirs).2 = true := by
  rw [mkdirPhase_events]
  simp [noCreateOrDownload, List.all_cons, List.all_map]

lemma downloadKey_ok_facts (w : DLWorld) (d : String) (fs : FS) (k : String)
    (fs' : FS) (evs : List Event)
    (hok : downloadKey w d fs k = (Except.ok fs', evs)) :
    SubFS fs fs' ∧ statExists fs' (d ++ k) = true ∧ procKeys evs = [k] := by
  simp only [downloadKey] at hok
  split_ifs at hok with h1 h2 h3 h4 h5 h6 h7
  all_goals simp only [Prod.mk.injEq, Except.ok.injEq, reduceCtorEq, false_and] at hok
  · rw [← hok.1, ← hok.2]
    exact ⟨subFS_applyMkdirAll w fs _, h2, by simp [procKeys, List.filterMap_cons]⟩
  · rw [← hok.1, ← hok.2]
    refine ⟨(subFS_applyMkdirAll w fs _).trans ⟨fun x hx => by simp [hx], fun x hx => hx⟩,
      ?_, by simp [procKeys, List.filterMap_cons]⟩
    simp [statExists, List.any_append]
  · rw [← hok.1, ← hok.2]
    exact ⟨SubFS.rfl fs, h5, by simp [procKeys, List.filterMap_cons]⟩
  · rw [← hok.1, ← hok.2]
    refine ⟨⟨fun x hx => by simp [hx], fun x hx => hx⟩, ?_,
      by simp [procKeys, List.filterMap_cons]⟩
    simp [statExists, List.any_append]

lemma downloadKey_skip (w : DLWorld) (d : String) (fs : FS) (k : String)
    (hex : statExists fs (d ++ k) = true) :
    ∃ fs' evs, downloadKey w d fs k = (Except.ok fs', evs) ∧ fs'.files = fs.files ∧
      SubFS fs fs' ∧ noCreateOrDownload evs = true := by
  simp only [downloadKey]
  rcases hcont : k.data.contains '/' with _ | _
  · simp only [hcont, Bool.false_eq_true, if_false]
    rw [if_pos hex]
    exact ⟨_, _, rfl, rfl, SubFS.rfl fs, by simp [noCreateOrDownload, List.all_cons]⟩
  · simp only [hcont, if_true]
    have hex1 : statExists (applyMkdirAll w fs (dirTreePath d k)) (d ++ k) = true :=
      statExists_mono (subFS_applyMkdirAll w fs _) _ hex
    rw [if_pos hex1]
    exact ⟨_, _, rfl, applyMkdirAll_files w fs _, subFS_applyMkdirAll w fs _,
      by simp [noCreateOrDownload, List.all_cons]⟩

lemma dowloadObjectsInBucket_ok_facts (w : DLWorld) (d : String) :
    ∀ (keys : List String) (fs fs' : FS) (evs : List Event),
      dowloadObjectsInBucket w d fs keys = (Except.ok fs', evs) →
      SubFS fs fs' ∧ (∀ k ∈ keys, statExists fs' (d ++ k) = true) ∧
        procKeys evs = keys := by
  intro keys
  induction keys with
  | nil =>
    intro fs fs' evs hok
    simp only [dowloadObjectsInBucket, Prod.mk.injEq, Except.ok.injEq] at hok
    rw [← hok.1, ← hok.2]
    exact ⟨SubFS.rfl fs, by simp, rfl⟩
  | cons k rest ih =>
    intro fs fs' evs hok
    rcases hdk : downloadKey w d fs k with ⟨res1, evs1⟩
    cases res1 with
    | error e => rw [dowloadObjectsInBucket, hdk] at hok; simp at hok
    | ok fs1 =>
      rcases hr : dowloadObjectsInBucket w d fs1 rest with ⟨res2, evs2⟩
      cases res2 with
      | error e =>
        rw [dowloadObjectsInBucket, hdk] at hok
        simp only [hr, Prod.mk.injEq, reduceCtorEq, false_and] at hok
      | ok fs2 =>
        rw [dowloadObjectsInBucket, hdk] at hok
        simp only [hr, Prod.mk.injEq, Except.ok.injEq] at hok
        obtain ⟨hk1, hex1, hpk1⟩ := downloadKey_ok_facts w d fs k fs1 evs1 hdk
        obtain ⟨hk2, hex2, hpk2⟩ := ih fs1 fs2 evs2 hr
        rw [← hok.1, ← hok.2]
        refine ⟨hk1.trans hk2, ?_, ?_⟩
        · intro k2 hk2m
          rcases List.mem_cons.mp hk2m with hk2m | hk2m
          · rw [hk2m]
            exact statExists_mono hk2 _ hex1
          · exact hex2 k2 hk2m
        · rw [procKeys_append, hpk1, hpk2]
          rfl

lemma dowloadObjectsInBucket_skip (w : DLWorld) (d : String) :
    ∀ (keys : List String) (fs : FS),
      (∀ k ∈ keys, statExists fs (d ++ k) = true) →
      ∃ fs' evs, dowloadObjectsInBucket w d fs keys = (Except.ok fs', evs) ∧
        fs'.files = fs.files ∧ SubFS fs fs' ∧ noCreateOrDownload evs = true := by
  intro keys
  induction keys with
  | nil =>
    intro fs _
    exact ⟨fs, [], rfl, rfl, SubFS.rfl fs, rfl⟩
  | cons k rest ih =>
    intro fs hex
    obtain ⟨fs1, evs1, hdk, hfiles1, hsub1, hncd1⟩ :=
      downloadKey_skip w d fs k (hex k (by simp))
    obtain ⟨fs2, evs2, hr, hfiles2, hsub2, hncd2⟩ := ih fs1
      (fun k2 hk2 => statExists_mono hsub1 _ (hex k2 (by simp [hk2])))
    refine ⟨fs2, evs1 ++ evs2, ?_, ?_, hsub1.trans hsub2, ?_⟩
    · rw [dowloadObjectsInBucket, hdk]
      simp [hr]
    · rw [hfiles2, hfiles1]
    · rw [noCreateOrDownload_append, hncd1, hncd2]
      rfl

lemma procKeys_cons_listCall (evs : List Event) :
    procKeys (Event.listCall :: evs) = procKeys evs := by
  simp [procKeys, List.filterMap_cons]

lemma downloadLoop_ok_facts (w : DLWorld) (d : String) :
    ∀ (resps : List (Option Page)) (fs fs' : FS) (evs : List Event),
      downloadLoop w d fs resps = (Except.ok fs', evs) →
      SubFS fs fs' ∧ ∀ k ∈ procKeys evs, statExists fs' (d ++ k) = true := by
  intro resps
  induction resps with
  | nil => intro fs fs' evs hok; simp [downloadLoop] at hok
  | cons r rest ih =>
    intro fs fs' evs hok
    cases r with
    | none => simp [downloadLoop] at hok
    | some page =>
      rcases hpg : dowloadObjectsInBucket w d fs page.contents with ⟨res1, evs1⟩
      cases res1 with
      | error e =>
        rw [downloadLoop_cons_some, hpg] at hok
        simp at hok
      | ok fs1 =>
        obtain ⟨hsub1, hex1, hpk1⟩ :=
          dowloadObjectsInBucket_ok_facts w d page.contents fs fs1 evs1 hpg
        rcases ht : page.isTruncated with _ | _
        · rw [downloadLoop_cons_some, hpg] at hok
          simp only [ht, Bool.false_eq_true, if_false, Prod.mk.injEq, Except.ok.injEq] at hok
          rw [← hok.1, ← hok.2]
          refine ⟨hsub1, ?_⟩
          intro k hk
          rw [procKeys_cons_listCall, hpk1] at hk
          exact hex1 k hk
        · rw [downloadLoop_cons_some, hpg] at hok
          simp only [ht, if_true] at hok
          rcases hlr : downloadLoop w d fs1 rest with ⟨res2, evs2⟩
          rw [hlr] at hok
          cases res2 with
          | error e => simp at hok
          | ok fs2 =>
            simp only [Prod.mk.injEq, Except.ok.injEq] at hok
            obtain ⟨hsub2, hex2⟩ := ih fs1 fs2 evs2 hlr
            rw [← hok.1, ← hok.2]
            refine ⟨hsub1.trans hsub2, ?_⟩
            intro k hk
            rw [procKeys_cons_listCall, procKeys_append] at hk
            rcases List.mem_append.mp hk with hk | hk
            · rw [hpk1] at hk
              exact statExists_mono hsub2 _ (hex1 k hk)
            · exact hex2 k hk

lemma downloadLoop_skip (w : DLWorld) (d : String) :
    ∀ (resps : List (Option Page)) (fs fs1 : FS) (evs1 : List Event),
      downloadLoop w d fs resps = (Except.ok fs1, evs1) →
      ∀ fs2, SubFS fs1 fs2 →
        (∀ k ∈ procKeys evs1, statExists fs2 (d ++ k) = true) →
        ∃ fs2' evs2, downloadLoop w d fs2 resps = (Except.ok fs2', evs2) ∧
          fs2'.files = fs2.files ∧ SubFS fs2 fs2' ∧ noCreateOrDownload evs2 = true := by
  intro resps
  induction resps with
  | nil => intro fs fs1 evs1 hok; simp [downloadLoop] at hok
  | cons r rest ih =>
    intro fs fs1 evs1 hok fs2 hsub hex
    cases r with
    | none => simp [downloadLoop] at hok
    | some page =>
      rcases hpg : dowloadObjectsInBucket w d fs page.contents with ⟨res1, evsa⟩
      cases res1 with
      | error e =>
        rw [downloadLoop_cons_some, hpg] at hok
        simp at hok
      | ok fsa =>
        obtain ⟨hsuba, hexa, hpka⟩ :=
          dowloadObjectsInBucket_ok_facts w d page.contents fs fsa evsa hpg
        rcases ht : page.isTruncated with _ | _
        · rw [downloadLoop_cons_some, hpg] at hok
          simp only [ht, Bool.false_eq_true, if_false, Prod.mk.injEq, Except.ok.injEq] at hok
          have hexpage : ∀ k ∈ page.contents, statExists fs2 (d ++ k) = true := by
            intro k hk
            apply hex
            rw [← hok.2, procKeys_cons_listCall, hpka]
            exact hk
          obtain ⟨fs2', evs2', hpg2, hfiles2, hsub2, hncd2⟩ :=
            dowloadObjectsInBucket_skip w d page.contents fs2 hexpage
          refine ⟨fs2', Event.listCall :: evs2', ?_, hfiles2, hsub2, ?_⟩
          · rw [downloadLoop_cons_some, hpg2]
            simp [ht]
          · simpa [noCreateOrDownload, List.all_cons] using hncd2
        · rw [downloadLoop_cons_some, hpg] at hok
          simp only [ht, if_true] at hok
          rcases hlr : downloadLoop w d fsa rest with ⟨res2, evsr⟩
          rw [hlr] at hok
          cases res2 with
          | error e => simp at hok
          | ok fsr =>
            simp only [Prod.mk.injEq, Except.ok.injEq] at hok
            have hevs1 : evs1 = Event.listCall :: (evsa ++ evsr) := hok.2.symm
            have hfsr : fsr = fs1 := hok.1
            have hexpage : ∀ k ∈ page.contents, statExists fs2 (d ++ k) = true := by
              intro k hk
              apply hex
              rw [hevs1, procKeys_cons_listCall, procKeys_append]
              apply List.mem_append.mpr
              left
              rw [hpka]
              exact hk
            obtain ⟨fs2a, evs2a, hpg2, hfiles2a, hsub2a, hncd2a⟩ :=
              dowloadObjectsInBucket_skip w d page.contents fs2 hexpage
            have hexr : ∀ k ∈ procKeys evsr, statExists fs2a (d ++ k) = true := by
              intro k hk
              apply statExists_mono hsub2a
              apply hex
              rw [hevs1, procKeys_cons_listCall, procKeys_append]
              apply List.mem_append.mpr
              right
              exact hk
            obtain ⟨fs2'', evs2'', hl2, hfiles2'', hsub2'', hncd2''⟩ :=
              ih fsa fsr evsr hlr fs2a (hfsr ▸ hsub.trans hsub2a) hexr
            refine ⟨fs2'', Event.listCall :: (evs2a ++ evs2''), ?_, ?_, hsub2a.trans hsub2'', ?_⟩
            · rw [downloadLoop_cons_some, hpg2]
              simp only [ht, if_true, hl2]
            · rw [hfiles2'', hfiles2a]
            · have := noCreateOrDownload_append evs2a evs2''
              simp [noCreateOrDownload, List.all_cons, List.all_append] at hncd2a hncd2'' ⊢
              exact ⟨hncd2a, hncd2''⟩

/-- C4: `DownloadAllObjectsInBucket` is idempotent with respect to file
contents.  First part: for every listed key whose derived destination file
(raw path `destDir ++ key`) already exists, the per-key processing creates
no file and issues no download call, and leaves the file set unchanged.
Second part: consequently, running `DownloadAllObjectsInBucket` twice in
sequence with an unchanged remote listing rewrites zero local files on the
second run — the second run succeeds, performs no file creation and no
download call, and leaves the file set of the first run's result
unchanged. -/
theorem download_idempotent (w : DLWorld) :
    (∀ (destDir key : String) (fs : FS),
        fileExists fs (destDir ++ key) = true →
        ∃ fs' evs, downloadKey w destDir fs key = (Except.ok fs', evs) ∧
          fs'.files = fs.files ∧ noCreateOrDownload evs = true) ∧
      ∀ (fs : FS) (destDir : String) (otherDirs : List String) (fs1 : FS)
        (evs1 : List Event),
        DownloadAllObjectsInBucket w fs destDir otherDirs = (Outcome.ok fs1, evs1) →
        ∃ fs2 evs2,
          DownloadAllObjectsInBucket w fs1 destDir otherDirs = (Outcome.ok fs2, evs2) ∧
            noCreateOrDownload evs2 = true ∧ fs2.files = fs1.files := by
  constructor
  · intro destDir key fs hf
    have hex : statExists fs (destDir ++ key) = true := by
      simp only [statExists, Bool.or_eq_true]
      exact Or.inl hf
    obtain ⟨fs', evs, hdk, hfiles, _, hncd⟩ := downloadKey_skip w destDir fs key hex
    exact ⟨fs', evs, hdk, hfiles, hncd⟩
  · intro fs destDir otherDirs fs1 evs1 hrun1
    have hlen : ¬destDir.data.length = 0 := by
      intro h0
      rw [DownloadAllObjectsInBucket, if_pos h0] at hrun1
      simp at hrun1
    rw [DownloadAllObjectsInBucket, if_neg hlen] at hrun1
    rcases hl1 : downloadLoop w (normalizeDestDir destDir)
        (mkdirPhase w fs (normalizeDestDir destDir) otherDirs).1 w.pages with ⟨res, evs⟩
    rw [hl1] at hrun1
    cases res with
    | error e => simp at hrun1
    | ok fsL =>
      simp only [Prod.mk.injEq, Outcome.ok.injEq] at hrun1
      obtain ⟨hsubL, hexL⟩ := downloadLoop_ok_facts w (normalizeDestDir destDir) w.pages
        (mkdirPhase w fs (normalizeDestDir destDir) otherDirs).1 fsL evs hl1
      have hfs1 : fsL = fs1 := hrun1.1
      obtain ⟨fs2', evs2', hl2, hfiles2, hsub2, hncd2⟩ :=
        downloadLoop_skip w (normalizeDestDir destDir) w.pages
          (mkdirPhase w fs (normalizeDestDir destDir) otherDirs).1 fsL evs hl1
          (mkdirPhase w fs1 (normalizeDestDir destDir) otherDirs).1
          (hfs1 ▸ subFS_mkdirPhase w fs1 (normalizeDestDir destDir) otherDirs)
          (fun k hk =>
            statExists_mono (hfs1 ▸ subFS_mkdirPhase w fs1 (normalizeDestDir destDir) otherDirs)
              _ (hexL k hk))
      refine ⟨fs2', (mkdirPhase w fs1 (normalizeDestDir destDir) otherDirs).2 ++ evs2',
        ?_, ?_, ?_⟩
      · rw [DownloadAllObjectsInBucket, if_neg hlen, hl2]
      · rw [noCreateOrDownload_append, noCreateOrDownload_mkdirPhase, hncd2]
        rfl
      · rw [hfiles2, mkdirPhase_files]

theorem download_idempotent_witness :
    (∃ fs' evs,
        downloadKey ⟨[some ⟨["a"], false⟩], fun _ => false, fun _ => false, fun _ => false,
            fun _ => "body"⟩ "out/" ⟨[(["out", "a"], "body")], [["out"]]⟩ "a" =
          (Except.ok fs', evs) ∧
          fs'.files = [(["out", "a"], "body")] ∧ noCreateOrDownload evs = true) ∧
      ∃ fs2 evs2,
        DownloadAllObjectsInBucket
            ⟨[some ⟨["a"], false⟩], fun _ => false, fun _ => false, fun _ => false,
              fun _ => "body"⟩
            ⟨[(["out", "a"], "body")], [["out"]]⟩ "out/" [] =
          (Outcome.ok fs2, evs2) ∧
          noCreateOrDownload evs2 = true ∧ fs2.files = [(["out", "a"], "body")] := by
  constructor
  · exact (download_idempotent _).1 "out/" "a" ⟨[(["out", "a"], "body")], [["out"]]⟩
      (by decide)
  · exact (download_idempotent _).2 FS.empty "out/" []
      ⟨[(["out", "a"], "body")], [["out"]]⟩
      [Event.mkdir "out/", Event.listCall, Event.procKey "a", Event.create "out/a",
        Event.download "a"]
      (by decide)

end LambdaHelpers
